import Mathlib

/-!
Verification development for the deno_bson codec (lucsoft/deno_bson).

The repository ships the facade module `src/bson.ts` (serialize,
serializeWithBufferAndIndex, deserialize, deserializeStream,
calculateObjectSize, setInternalBufferSize), the MinKey/MaxKey/Int32
extended-JSON classes, and the Timestamp test-suite.  The internal
parser modules (parser/serializer.ts, parser/deserializer.ts,
parser/calculate_size.ts) and the Timestamp/Long classes are not part
of the provided sources, so those parts are modelled here from the
specification (each such definition carries a doc comment starting
with `Modelled from the spec:`).  Everything taken from `src/bson.ts`
itself (option unpacking, the shared internal buffer, the
deserializeStream loop, the returned indices) is translated directly
from that file.

Bytes are lists of natural numbers; 32/64-bit fields are written
little-endian with explicit `% 2 ^ 32` / `% 2 ^ 64` arithmetic.
-/

set_option maxRecDepth 8000

namespace BsonModel

/-- A byte buffer: a list of naturals (well-formed buffers hold values below 256). -/
abbrev Bytes := List Nat

/-- Little-endian 4-byte encoding of a 32-bit field. -/
def le32 (n : Nat) : Bytes :=
  [n % 256, n / 256 % 256, n / 65536 % 256, n / 16777216 % 256]

/-- Little-endian 8-byte encoding of a 64-bit field. -/
def le64 (n : Nat) : Bytes :=
  le32 (n % 4294967296) ++ le32 (n / 4294967296)

@[simp] theorem le32_length (n : Nat) : (le32 n).length = 4 := rfl

@[simp] theorem le64_length (n : Nat) : (le64 n).length = 8 := rfl

/-- Decimal digit bytes (ASCII) of a natural number, most significant first;
the first argument is recursion fuel (any value above the argument works). -/
def decAux : Nat → Nat → Bytes
  | 0, _ => []
  | fuel + 1, n => if n < 10 then [48 + n] else decAux fuel (n / 10) ++ [48 + n % 10]

/-- ASCII decimal rendering of a natural number (used for array indices,
matching the stringified numeric keys of the array encoding). -/
def decimalBytes (n : Nat) : Bytes := decAux (n + 1) n

/-- Every byte produced by `decAux` is an ASCII digit (48..57). -/
theorem decAux_digits : ∀ fuel n b, b ∈ decAux fuel n → 48 ≤ b ∧ b ≤ 57 := by
  intro fuel
  induction fuel with
  | zero => intro n b h; simp [decAux] at h
  | succ f ih =>
      intro n b h
      simp only [decAux] at h
      by_cases hn : n < 10
      · simp [hn] at h
        omega
      · simp [hn] at h
        rcases h with h | h
        · exact ih _ _ h
        · omega

theorem decimalBytes_digits (n b : Nat) (h : b ∈ decimalBytes n) : 48 ≤ b ∧ b ≤ 57 :=
  decAux_digits _ _ _ h

/-- Ordered insertion of a byte into a byte list (ascending). -/
def insertByte (b : Nat) : Bytes → Bytes
  | [] => [b]
  | c :: rest => if b ≤ c then b :: c :: rest else c :: insertByte b rest

/-- Insertion sort of the regular-expression flag bytes: the BSON
convention stores flags in the fixed i,l,m,s,u,x order, which is
ascending ASCII byte order. -/
def sortFlags : Bytes → Bytes
  | [] => []
  | b :: rest => insertByte b (sortFlags rest)

theorem insertByte_length (b : Nat) (l : Bytes) :
    (insertByte b l).length = l.length + 1 := by
  induction l with
  | nil => rfl
  | cons c rest ih =>
      by_cases h : b ≤ c <;> simp [insertByte, h, ih]

theorem sortFlags_length (l : Bytes) : (sortFlags l).length = l.length := by
  induction l with
  | nil => rfl
  | cons b rest ih => simp [sortFlags, insertByte_length, ih]

/-- The BSON Value Model (spec section 3): the closed set of value kinds.
Numeric payloads are stored as little-endian bit patterns (Nat), strings
and keys as byte lists. -/
inductive BVal where
  | double (bits : Nat)
  | str (s : Bytes)
  | doc (entries : List (Bytes × BVal))
  | arr (elems : List BVal)
  | binData (subtype : Nat) (data : Bytes)
  | undef
  | objectId (oid : Bytes)
  | boolean (b : Bool)
  | datetime (millis : Nat)
  | nullV
  | regex (pattern : Bytes) (flags : Bytes)
  | dbPointer (ns : Bytes) (oid : Bytes)
  | code (s : Bytes)
  | symbol (s : Bytes)
  | codeWithScope (s : Bytes) (scope : List (Bytes × BVal))
  | int32 (v : Nat)
  | timestamp (v : Nat)
  | long (v : Nat)
  | decimal128 (lo : Nat) (hi : Nat)
  | minKey
  | maxKey

/-- A Document: ordered list of key/value entries. -/
abbrev DocT := List (Bytes × BVal)

/-- The BSON type tag byte of each value kind (spec section 4.5 layout table). -/
def tagOf : BVal → Nat
  | .double _ => 1
  | .str _ => 2
  | .doc _ => 3
  | .arr _ => 4
  | .binData _ _ => 5
  | .undef => 6
  | .objectId _ => 7
  | .boolean _ => 8
  | .datetime _ => 9
  | .nullV => 10
  | .regex _ _ => 11
  | .dbPointer _ _ => 12
  | .code _ => 13
  | .symbol _ => 14
  | .codeWithScope _ _ => 15
  | .int32 _ => 16
  | .timestamp _ => 17
  | .long _ => 18
  | .decimal128 _ _ => 19
  | .minKey => 255
  | .maxKey => 127

/-- Whether a value is the deprecated Undefined kind. -/
def isUndef : BVal → Bool
  | .undef => true
  | _ => false

/-- Length-prefixed BSON string: int32 length (bytes plus NUL), bytes, NUL. -/
def bstring (s : Bytes) : Bytes := le32 (s.length + 1) ++ s ++ [0]

@[simp] theorem bstring_length (s : Bytes) : (bstring s).length = s.length + 5 := by
  simp [bstring]; omega

mutual
/-- Modelled from the spec: the payload bytes the internal serializer
(parser/serializer.ts, not in the provided sources) writes for one value,
per the binary layout table of spec section 4.5; regular-expression flag
bytes are written sorted per the BSON i,l,m,s,u,x convention.  `ig` is
the ignoreUndefined option (it acts at entry level). -/
def encValue (ig : Bool) : BVal → Bytes
  | .double bits => le64 bits
  | .str s => bstring s
  | .doc es =>
      le32 ((encEntries ig es).length + 5) ++ encEntries ig es ++ [0]
  | .arr vs =>
      le32 ((encArr ig 0 vs).length + 5) ++ encArr ig 0 vs ++ [0]
  | .binData st data => le32 data.length ++ [st] ++ data
  | .undef => []
  | .objectId oid => oid
  | .boolean b => [if b then 1 else 0]
  | .datetime millis => le64 millis
  | .nullV => []
  | .regex p f => p ++ [0] ++ sortFlags f ++ [0]
  | .dbPointer ns oid => bstring ns ++ oid
  | .code s => bstring s
  | .symbol s => bstring s
  | .codeWithScope s scope =>
      le32 (4 + (bstring s).length +
        ((encEntries ig scope).length + 5)) ++ bstring s ++
        (le32 ((encEntries ig scope).length + 5) ++ encEntries ig scope ++ [0])
  | .int32 v => le32 v
  | .timestamp v => le64 v
  | .long v => le64 v
  | .decimal128 lo hi => le64 lo ++ le64 hi
  | .minKey => []
  | .maxKey => []

/-- Modelled from the spec: the body bytes of a document (the entry list
between the length prefix and the closing NUL); with ignoreUndefined set,
Undefined-valued entries are omitted. -/
def encEntries (ig : Bool) : DocT → Bytes
  | [] => []
  | (k, v) :: rest =>
      (if ig && isUndef v then [] else tagOf v :: (k ++ [0] ++ encValue ig v)) ++
        encEntries ig rest

/-- Modelled from the spec: the body bytes of an array, reusing the document
algorithm with stringified numeric keys starting at index `i`. -/
def encArr (ig : Bool) (i : Nat) : List BVal → Bytes
  | [] => []
  | v :: rest =>
      (if ig && isUndef v then [] else
        tagOf v :: (decimalBytes i ++ [0] ++ encValue ig v)) ++
        encArr ig (i + 1) rest
end

/-- Modelled from the spec: the full framed encoding of a document:
int32 length prefix, body, trailing NUL. -/
def encDocB (ig : Bool) (es : DocT) : Bytes :=
  le32 ((encEntries ig es).length + 5) ++ encEntries ig es ++ [0]

theorem encValue_doc (ig : Bool) (es : DocT) :
    encValue ig (.doc es) = encDocB ig es := rfl

@[simp] theorem encDocB_length (ig : Bool) (es : DocT) :
    (encDocB ig es).length = (encEntries ig es).length + 5 := by
  simp [encDocB]; omega

mutual
/-- Modelled from the spec: the SizeCalculator pass
(parser/calculate_size.ts, not in the provided sources): the exact
encoded payload size of one value per the payload-size rules of spec
section 4.4. -/
def sizeValue (ig : Bool) : BVal → Nat
  | .double _ => 8
  | .str s => 4 + s.length + 1
  | .doc es => 4 + sizeEntries ig es + 1
  | .arr vs => 4 + sizeArr ig 0 vs + 1
  | .binData _ data => 4 + 1 + data.length
  | .undef => 0
  | .objectId _ => 12
  | .boolean _ => 1
  | .datetime _ => 8
  | .nullV => 0
  | .regex p f => p.length + 1 + f.length + 1
  | .dbPointer ns _ => (4 + ns.length + 1) + 12
  | .code s => 4 + s.length + 1
  | .symbol s => 4 + s.length + 1
  | .codeWithScope s scope => 4 + (4 + s.length + 1) + (4 + sizeEntries ig scope + 1)
  | .int32 _ => 4
  | .timestamp _ => 8
  | .long _ => 8
  | .decimal128 _ _ => 16
  | .minKey => 0
  | .maxKey => 0

/-- Modelled from the spec: summed entry sizes of a document body:
1 (type tag) + key length + 1 (NUL) + payload size per entry, with
Undefined-valued entries contributing 0 under ignoreUndefined. -/
def sizeEntries (ig : Bool) : DocT → Nat
  | [] => 0
  | (k, v) :: rest =>
      (if ig && isUndef v then 0 else 1 + k.length + 1 + sizeValue ig v) +
        sizeEntries ig rest

/-- Modelled from the spec: array body size via stringified numeric keys. -/
def sizeArr (ig : Bool) (i : Nat) : List BVal → Nat
  | [] => 0
  | v :: rest =>
      (if ig && isUndef v then 0 else
        1 + (decimalBytes i).length + 1 + sizeValue ig v) +
        sizeArr ig (i + 1) rest
end

/-- Modelled from the spec: full document size: 4-byte length prefix +
entries + trailing NUL. -/
def sizeDocB (ig : Bool) (es : DocT) : Nat := 4 + sizeEntries ig es + 1

/-- All buffer bytes below 256. -/
def byteOK (s : Bytes) : Bool := s.all (fun b => decide (b < 256))

/-- Bytes of a C-string payload (key / regex field): nonzero and below 256. -/
def cstrOK (s : Bytes) : Bool := s.all (fun b => decide (0 < b ∧ b < 256))

mutual
/-- A value of a kind supported in both serialization directions, with
payload invariants matching the source classes (ObjectId holds exactly
12 bytes, numeric bit patterns fit their width, string lengths fit the
int32 length prefix, regular-expression flags already in the sorted
BSON i,l,m,s,u,x order the serializer writes); the deprecated
write-only Undefined kind is excluded. -/
def wfV : BVal → Bool
  | .double bits => decide (bits < 2 ^ 64)
  | .str s => byteOK s && decide (s.length + 1 < 2 ^ 32)
  | .doc es => wfE es
  | .arr vs => wfL vs
  | .binData st data => decide (st < 256) && byteOK data && decide (data.length < 2 ^ 32)
  | .undef => false
  | .objectId oid => decide (oid.length = 12) && byteOK oid
  | .boolean _ => true
  | .datetime millis => decide (millis < 2 ^ 64)
  | .nullV => true
  | .regex p f => cstrOK p && cstrOK f && decide (sortFlags f = f)
  | .dbPointer ns oid =>
      byteOK ns && decide (ns.length + 1 < 2 ^ 32) &&
        (decide (oid.length = 12) && byteOK oid)
  | .code s => byteOK s && decide (s.length + 1 < 2 ^ 32)
  | .symbol s => byteOK s && decide (s.length + 1 < 2 ^ 32)
  | .codeWithScope s scope =>
      (byteOK s && decide (s.length + 1 < 2 ^ 32)) && wfE scope
  | .int32 v => decide (v < 2 ^ 32)
  | .timestamp v => decide (v < 2 ^ 64)
  | .long v => decide (v < 2 ^ 64)
  | .decimal128 lo hi => decide (lo < 2 ^ 64) && decide (hi < 2 ^ 64)
  | .minKey => true
  | .maxKey => true

/-- Well-formed entry list: NUL-free keys and well-formed values. -/
def wfE : DocT → Bool
  | [] => true
  | (k, v) :: rest => cstrOK k && wfV v && wfE rest

/-- Well-formed element list. -/
def wfL : List BVal → Bool
  | [] => true
  | v :: rest => wfV v && wfL rest
end

mutual
/-- Structural size measure used for strong induction over the nested
value type. -/
def bsizeV : BVal → Nat
  | .doc es => 1 + bsizeE es
  | .arr vs => 1 + bsizeL vs
  | .codeWithScope _ scope => 1 + bsizeE scope
  | _ => 1

def bsizeE : DocT → Nat
  | [] => 0
  | (_, v) :: rest => 1 + bsizeV v + bsizeE rest

def bsizeL : List BVal → Nat
  | [] => 0
  | v :: rest => 1 + bsizeV v + bsizeL rest
end

theorem bsizeV_pos (v : BVal) : 1 ≤ bsizeV v := by
  cases v <;> simp [bsizeV]

theorem bsizeV_le_of_mem_E {es : DocT} {k : Bytes} {v : BVal}
    (h : (k, v) ∈ es) : bsizeV v ≤ bsizeE es := by
  induction es with
  | nil => simp at h
  | cons e rest ih =>
      rcases e with ⟨k', v'⟩
      rcases List.mem_cons.mp h with h | h
      · cases h; simp [bsizeE]; omega
      · have := ih h; simp [bsizeE]; omega

theorem bsizeV_le_of_mem_L {vs : List BVal} {v : BVal}
    (h : v ∈ vs) : bsizeV v ≤ bsizeL vs := by
  induction vs with
  | nil => simp at h
  | cons v' rest ih =>
      rcases List.mem_cons.mp h with h | h
      · cases h; simp [bsizeL]; omega
      · have := ih h; simp [bsizeL]; omega

/-- The entry list an array stands for under the document algorithm:
stringified numeric keys starting at `i`. -/
def arrEntries (i : Nat) : List BVal → DocT
  | [] => []
  | v :: rest => (decimalBytes i, v) :: arrEntries (i + 1) rest

theorem encArr_eq_encEntries (ig : Bool) (i : Nat) (vs : List BVal) :
    encArr ig i vs = encEntries ig (arrEntries i vs) := by
  induction vs generalizing i with
  | nil => simp [encArr, arrEntries, encEntries]
  | cons v rest ih => simp [encArr, arrEntries, encEntries, ih]

theorem sizeArr_eq_sizeEntries (ig : Bool) (i : Nat) (vs : List BVal) :
    sizeArr ig i vs = sizeEntries ig (arrEntries i vs) := by
  induction vs generalizing i with
  | nil => simp [sizeArr, arrEntries, sizeEntries]
  | cons v rest ih => simp [sizeArr, arrEntries, sizeEntries, ih]

theorem arrEntries_map_snd (i : Nat) (vs : List BVal) :
    (arrEntries i vs).map Prod.snd = vs := by
  induction vs generalizing i with
  | nil => rfl
  | cons v rest ih => simp [arrEntries, ih]

theorem mem_arrEntries {i : Nat} {vs : List BVal} {k : Bytes} {v : BVal}
    (h : (k, v) ∈ arrEntries i vs) : v ∈ vs := by
  induction vs generalizing i with
  | nil => simp [arrEntries] at h
  | cons v' rest ih =>
      rcases List.mem_cons.mp h with h | h
      · cases h; exact List.mem_cons_self _ _
      · exact List.mem_cons_of_mem _ (ih h)

theorem wfE_arrEntries {i : Nat} {vs : List BVal} (h : wfL vs = true) :
    wfE (arrEntries i vs) = true := by
  induction vs generalizing i with
  | nil => rfl
  | cons v rest ih =>
      simp [wfL, Bool.and_eq_true] at h
      simp [arrEntries, wfE, Bool.and_eq_true]
      refine ⟨⟨?_, h.1⟩, ih h.2⟩
      simp [cstrOK, List.all_eq_true]
      intro b hb
      have := decimalBytes_digits i b hb
      omega

theorem bsizeE_arrEntries (i : Nat) (vs : List BVal) :
    bsizeE (arrEntries i vs) = bsizeL vs := by
  induction vs generalizing i with
  | nil => rfl
  | cons v rest ih => simp [arrEntries, bsizeE, bsizeL, ih]

/-- Read a little-endian 32-bit field. -/
def readLE32 : Bytes → Option (Nat × Bytes)
  | b0 :: b1 :: b2 :: b3 :: rest =>
      some (b0 + b1 * 256 + b2 * 65536 + b3 * 16777216, rest)
  | _ => none

/-- Read a little-endian 64-bit field. -/
def readLE64 : Bytes → Option (Nat × Bytes)
  | b0 :: b1 :: b2 :: b3 :: b4 :: b5 :: b6 :: b7 :: rest =>
      some (b0 + b1 * 256 + b2 * 65536 + b3 * 16777216 +
        b4 * 4294967296 + b5 * 1099511627776 + b6 * 281474976710656 +
        b7 * 72057594037927936, rest)
  | _ => none

/-- Take exactly `n` bytes. -/
def takeN (n : Nat) (bs : Bytes) : Option (Bytes × Bytes) :=
  if n ≤ bs.length then some (bs.take n, bs.drop n) else none

/-- Read a NUL-terminated byte string (the terminator is consumed). -/
def readCString : Bytes → Option (Bytes × Bytes)
  | [] => none
  | b :: rest =>
      if b = 0 then some ([], rest)
      else (readCString rest).map (fun p => (b :: p.1, p.2))

/-- Read a length-prefixed BSON string (length includes the NUL). -/
def readBString (bs : Bytes) : Option (Bytes × Bytes) := do
  let (len, r) ← readLE32 bs
  let (s, r') ← takeN (len - 1) r
  match r' with
  | 0 :: r'' => some (s, r'')
  | _ => none

theorem readLE32_le32 (n : Nat) (rest : Bytes) :
    readLE32 (le32 n ++ rest) = some (n % 2 ^ 32, rest) := by
  simp [le32, readLE32]
  omega

theorem readLE32_le32_of_lt {n : Nat} (h : n < 2 ^ 32) (rest : Bytes) :
    readLE32 (le32 n ++ rest) = some (n, rest) := by
  rw [readLE32_le32, Nat.mod_eq_of_lt h]

theorem readLE64_le64_of_lt {n : Nat} (h : n < 2 ^ 64) (rest : Bytes) :
    readLE64 (le64 n ++ rest) = some (n, rest) := by
  simp [le64, le32, readLE64]
  omega

theorem takeN_append (l rest : Bytes) :
    takeN l.length (l ++ rest) = some (l, rest) := by
  simp [takeN]

theorem readCString_append {s : Bytes} (h : cstrOK s = true) (rest : Bytes) :
    readCString (s ++ 0 :: rest) = some (s, rest) := by
  induction s with
  | nil => simp [readCString]
  | cons b s ih =>
      simp [cstrOK, List.all_eq_true] at h
      have hb : ¬ b = 0 := by have := h.1; omega
      have hs : cstrOK s = true := by
        simp [cstrOK, List.all_eq_true]; exact fun x hx => h.2 x hx
      simp [readCString, hb, ih hs]

theorem readBString_append {s : Bytes} (hb : s.length + 1 < 2 ^ 32)
    (rest : Bytes) : readBString (bstring s ++ rest) = some (s, rest) := by
  have h1 : bstring s ++ rest = le32 (s.length + 1) ++ (s ++ 0 :: rest) := by
    simp [bstring]
  have h2 : s.length + 1 - 1 = s.length := by omega
  have h3 := takeN_append s (0 :: rest)
  rw [readBString, h1, readLE32_le32_of_lt hb]
  simp [h2, h3]

mutual
/-- Modelled from the spec: the Deserializer value dispatch
(parser/deserializer.ts, not in the provided sources): parses one value
payload given its type tag, per the layout table of spec section 4.5.
`fuel` bounds the recursion depth; any fuel at least the payload length
plus one suffices.  Unknown type tags fail. -/
def parseValue : Nat → Nat → Bytes → Option (BVal × Bytes)
  | 0, _, _ => none
  | fuel + 1, tag, bs =>
      match tag with
      | 1 => (readLE64 bs).map (fun p => (.double p.1, p.2))
      | 2 => (readBString bs).map (fun p => (.str p.1, p.2))
      | 3 => do
          let (_, r) ← readLE32 bs
          let (es, r') ← parseEntries fuel r
          some (.doc es, r')
      | 4 => do
          let (_, r) ← readLE32 bs
          let (es, r') ← parseEntries fuel r
          some (.arr (es.map Prod.snd), r')
      | 5 => do
          let (len, r) ← readLE32 bs
          match r with
          | st :: r' => do
              let (data, r'') ← takeN len r'
              some (.binData st data, r'')
          | [] => none
      | 6 => some (.undef, bs)
      | 7 => (takeN 12 bs).map (fun p => (.objectId p.1, p.2))
      | 8 =>
          match bs with
          | b :: r => some (.boolean (b == 1), r)
          | [] => none
      | 9 => (readLE64 bs).map (fun p => (.datetime p.1, p.2))
      | 10 => some (.nullV, bs)
      | 11 => do
          let (p, r) ← readCString bs
          let (f, r') ← readCString r
          some (.regex p f, r')
      | 12 => do
          let (ns, r) ← readBString bs
          let (oid, r') ← takeN 12 r
          some (.dbPointer ns oid, r')
      | 13 => (readBString bs).map (fun p => (.code p.1, p.2))
      | 14 => (readBString bs).map (fun p => (.symbol p.1, p.2))
      | 15 => do
          let (_, r) ← readLE32 bs
          let (s, r') ← readBString r
          let (_, r'') ← readLE32 r'
          let (es, r''') ← parseEntries fuel r''
          some (.codeWithScope s es, r''')
      | 16 => (readLE32 bs).map (fun p => (.int32 p.1, p.2))
      | 17 => (readLE64 bs).map (fun p => (.timestamp p.1, p.2))
      | 18 => (readLE64 bs).map (fun p => (.long p.1, p.2))
      | 19 => do
          let (lo, r) ← readLE64 bs
          let (hi, r') ← readLE64 r
          some (.decimal128 lo hi, r')
      | 255 => some (.minKey, bs)
      | 127 => some (.maxKey, bs)
      | _ => none

/-- Modelled from the spec: the Deserializer entry loop: reads a type tag,
stops (consuming the byte) on the NUL terminator, otherwise reads the
NUL-terminated key and the value payload and continues. -/
def parseEntries : Nat → Bytes → Option (DocT × Bytes)
  | 0, _ => none
  | fuel + 1, bs =>
      match bs with
      | [] => none
      | 0 :: rest => some ([], rest)
      | tag :: rest => do
          let (k, r) ← readCString rest
          let (v, r') ← parseValue fuel tag r
          let (es, r'') ← parseEntries fuel r'
          some ((k, v) :: es, r'')
end

/-- Modelled from the spec, following the facade in src/bson.ts:
`deserialize` reads the 4-byte length prefix and parses the entry list up
to the required trailing NUL, tolerating extra bytes after the document
(the allowObjectSmallerThanBufferSize behaviour used by deserializeStream). -/
def deserializeF (bs : Bytes) : Option DocT := do
  let (_, r) ← readLE32 bs
  let (es, _) ← parseEntries bs.length r
  some es

theorem tagOf_ne_zero (v : BVal) : tagOf v ≠ 0 := by
  cases v <;> simp [tagOf]

theorem parseEntries_cons {fuel tag : Nat} {tail : Bytes} (h : tag ≠ 0) :
    parseEntries (fuel + 1) (tag :: tail) =
      (do
        let (k, r) ← readCString tail
        let (v, r') ← parseValue fuel tag r
        let (es, r'') ← parseEntries fuel r'
        some ((k, v) :: es, r'')) := by
  cases tag with
  | zero => exact absurd rfl h
  | succ n => rfl

theorem isUndef_eq_false_of_wf {v : BVal} (h : wfV v = true) :
    isUndef v = false := by
  cases v <;> first | rfl | (simp [wfV] at h)

/-- One-step unfolding of a well-formed document body encoding. -/
theorem encEntries_cons_wf {k : Bytes} {v : BVal} {rest : DocT}
    (h : isUndef v = false) :
    encEntries true ((k, v) :: rest) =
      tagOf v :: (k ++ [0] ++ encValue true v) ++ encEntries true rest := by
  simp [encEntries, h]

/-- Parsing a well-formed encoded entry list consumes exactly its bytes
and the terminating NUL, provided each member value round-trips. -/
theorem parseEntries_encEntries (es : DocT)
    (ih : ∀ k v, (k, v) ∈ es → wfV v = true → ∀ fuel rest,
      (encValue true v).length + 1 ≤ fuel →
      parseValue fuel (tagOf v) (encValue true v ++ rest) = some (v, rest))
    (hwf : wfE es = true) :
    ∀ fuel rest, (encEntries true es).length + 1 ≤ fuel →
      parseEntries fuel (encEntries true es ++ 0 :: rest) = some (es, rest) := by
  induction es with
  | nil =>
      intro fuel rest hf
      obtain ⟨f, rfl⟩ : ∃ f, fuel = f + 1 := ⟨fuel - 1, by omega⟩
      simp [parseEntries, encEntries]
  | cons e rest' ihes =>
      rcases e with ⟨k, v⟩
      intro fuel rest hf
      simp only [wfE, Bool.and_eq_true] at hwf
      obtain ⟨⟨hk, hv⟩, hrest⟩ := hwf
      have hnu : isUndef v = false := isUndef_eq_false_of_wf hv
      rw [encEntries_cons_wf hnu] at hf ⊢
      obtain ⟨f, rfl⟩ : ∃ f, fuel = f + 1 := ⟨fuel - 1, by omega⟩
      simp only [List.length_append, List.length_cons] at hf
      have hassoc :
          (tagOf v :: (k ++ [0] ++ encValue true v) ++ encEntries true rest') ++
              0 :: rest =
            tagOf v :: (k ++ 0 ::
              (encValue true v ++ (encEntries true rest' ++ 0 :: rest))) := by
        simp
      rw [hassoc, parseEntries_cons (tagOf_ne_zero v),
        readCString_append hk]
      have hpv := ih k v (List.mem_cons_self _ _) hv f
        (encEntries true rest' ++ 0 :: rest) (by simp at hf ⊢; omega)
      have hpe := ihes
        (fun k' v' hm => ih k' v' (List.mem_cons_of_mem _ hm)) hrest f rest
        (by simp at hf ⊢; omega)
      simp [hpv, hpe]

/-- Round-trip of a single well-formed value: parsing the encoded payload
at its own type tag returns the value and leaves the remaining bytes. -/
theorem roundTripV : ∀ n v, bsizeV v ≤ n → wfV v = true →
    ∀ fuel rest, (encValue true v).length + 1 ≤ fuel →
      parseValue fuel (tagOf v) (encValue true v ++ rest) = some (v, rest) := by
  intro n
  induction n using Nat.strong_induction_on with
  | _ n ihn =>
    intro v hb hwf fuel rest hf
    obtain ⟨f, rfl⟩ : ∃ f, fuel = f + 1 := ⟨fuel - 1, by omega⟩
    cases v with
    | double bits =>
        simp only [wfV, decide_eq_true_eq] at hwf
        simp [tagOf, encValue, parseValue, readLE64_le64_of_lt hwf]
    | str s =>
        simp only [wfV, Bool.and_eq_true, decide_eq_true_eq] at hwf
        simp [tagOf, encValue, parseValue, readBString_append hwf.2]
    | doc es =>
        simp only [wfV] at hwf
        have hb' : bsizeE es < n := by
          have : bsizeV (.doc es) = 1 + bsizeE es := rfl
          omega
        have hpe := parseEntries_encEntries es
          (fun k v hm hv => ihn (bsizeE es) hb' v (bsizeV_le_of_mem_E hm) hv)
          hwf f rest (by simp [encValue] at hf ⊢; omega)
        have hsplit : encValue true (.doc es) ++ rest =
            le32 ((encEntries true es).length + 5) ++
              (encEntries true es ++ 0 :: rest) := by
          simp [encValue]
        rw [hsplit]
        simp [tagOf, parseValue, readLE32_le32, hpe]
    | arr vs =>
        simp only [wfV] at hwf
        have hb' : bsizeE (arrEntries 0 vs) < n := by
          have h1 : bsizeV (.arr vs) = 1 + bsizeL vs := rfl
          have h2 := bsizeE_arrEntries 0 vs
          omega
        have hpe := parseEntries_encEntries (arrEntries 0 vs)
          (fun k v hm hv => ihn _ hb' v (bsizeV_le_of_mem_E hm) hv)
          (wfE_arrEntries hwf) f rest
          (by simp [encValue, encArr_eq_encEntries] at hf ⊢; omega)
        have hsplit : encValue true (.arr vs) ++ rest =
            le32 ((encEntries true (arrEntries 0 vs)).length + 5) ++
              (encEntries true (arrEntries 0 vs) ++ 0 :: rest) := by
          simp [encValue, encArr_eq_encEntries]
        rw [hsplit]
        simp [tagOf, parseValue, readLE32_le32, hpe, arrEntries_map_snd]
    | binData st data =>
        simp only [wfV, Bool.and_eq_true, decide_eq_true_eq] at hwf
        have hsplit : encValue true (.binData st data) ++ rest =
            le32 data.length ++ (st :: (data ++ rest)) := by
          simp [encValue]
        rw [hsplit]
        have htk := takeN_append data rest
        simp [tagOf, parseValue, readLE32_le32_of_lt hwf.2, htk]
    | undef => simp [wfV] at hwf
    | objectId oid =>
        simp only [wfV, Bool.and_eq_true, decide_eq_true_eq] at hwf
        have htk := takeN_append oid rest
        rw [hwf.1] at htk
        simp [tagOf, encValue, parseValue, htk]
    | boolean b =>
        cases b <;> simp [tagOf, encValue, parseValue]
    | datetime millis =>
        simp only [wfV, decide_eq_true_eq] at hwf
        simp [tagOf, encValue, parseValue, readLE64_le64_of_lt hwf]
    | nullV => simp [tagOf, encValue, parseValue]
    | regex p fl =>
        simp only [wfV, Bool.and_eq_true, decide_eq_true_eq] at hwf
        obtain ⟨⟨hp, hfl⟩, hsorted⟩ := hwf
        have hsplit : encValue true (.regex p fl) ++ rest =
            p ++ 0 :: (fl ++ 0 :: rest) := by
          simp [encValue, hsorted]
        rw [hsplit]
        simp [tagOf, parseValue, readCString_append hp,
          readCString_append hfl]
    | dbPointer ns oid =>
        simp only [wfV, Bool.and_eq_true, decide_eq_true_eq] at hwf
        have hsplit : encValue true (.dbPointer ns oid) ++ rest =
            bstring ns ++ (oid ++ rest) := by
          simp [encValue]
        rw [hsplit]
        have htk := takeN_append oid rest
        rw [hwf.2.1] at htk
        simp [tagOf, parseValue, readBString_append hwf.1.2, htk]
    | code s =>
        simp only [wfV, Bool.and_eq_true, decide_eq_true_eq] at hwf
        simp [tagOf, encValue, parseValue, readBString_append hwf.2]
    | symbol s =>
        simp only [wfV, Bool.and_eq_true, decide_eq_true_eq] at hwf
        simp [tagOf, encValue, parseValue, readBString_append hwf.2]
    | codeWithScope s scope =>
        simp only [wfV, Bool.and_eq_true, decide_eq_true_eq] at hwf
        obtain ⟨⟨hbs, hlen⟩, hsc⟩ := hwf
        have hb' : bsizeE scope < n := by
          have : bsizeV (.codeWithScope s scope) = 1 + bsizeE scope := rfl
          omega
        have hpe := parseEntries_encEntries scope
          (fun k v hm hv => ihn _ hb' v (bsizeV_le_of_mem_E hm) hv)
          hsc f rest (by simp [encValue] at hf ⊢; omega)
        have hsplit : encValue true (.codeWithScope s scope) ++ rest =
            le32 (4 + (bstring s).length + ((encEntries true scope).length + 5)) ++
              (bstring s ++
                (le32 ((encEntries true scope).length + 5) ++
                  (encEntries true scope ++ 0 :: rest))) := by
          simp [encValue]
        rw [hsplit]
        simp [tagOf, parseValue, readLE32_le32, readBString_append hlen, hpe]
    | int32 v =>
        simp only [wfV, decide_eq_true_eq] at hwf
        simp [tagOf, encValue, parseValue, readLE32_le32_of_lt hwf]
    | timestamp v =>
        simp only [wfV, decide_eq_true_eq] at hwf
        simp [tagOf, encValue, parseValue, readLE64_le64_of_lt hwf]
    | long v =>
        simp only [wfV, decide_eq_true_eq] at hwf
        simp [tagOf, encValue, parseValue, readLE64_le64_of_lt hwf]
    | decimal128 lo hi =>
        simp only [wfV, Bool.and_eq_true, decide_eq_true_eq] at hwf
        have hsplit : encValue true (.decimal128 lo hi) ++ rest =
            le64 lo ++ (le64 hi ++ rest) := by
          simp [encValue]
        rw [hsplit]
        simp [tagOf, parseValue, readLE64_le64_of_lt hwf.1,
          readLE64_le64_of_lt hwf.2]
    | minKey => simp [tagOf, encValue, parseValue]
    | maxKey => simp [tagOf, encValue, parseValue]

/-- Round-trip of a well-formed entry list. -/
theorem roundTripE (es : DocT) (hwf : wfE es = true) :
    ∀ fuel rest, (encEntries true es).length + 1 ≤ fuel →
      parseEntries fuel (encEntries true es ++ 0 :: rest) = some (es, rest) :=
  parseEntries_encEntries es
    (fun _ v _ hv fuel rest hf => roundTripV (bsizeV v) v le_rfl hv fuel rest hf)
    hwf

/-- Deserializing an encoded well-formed document followed by arbitrary
trailing bytes recovers exactly the document. -/
theorem deserializeF_append {es : DocT} (hwf : wfE es = true) (rest : Bytes) :
    deserializeF (encDocB true es ++ rest) = some es := by
  have hsplit : encDocB true es ++ rest =
      le32 ((encEntries true es).length + 5) ++
        (encEntries true es ++ 0 :: rest) := by
    simp [encDocB]
  have hlen : (encDocB true es ++ rest).length =
      (encEntries true es).length + 5 + rest.length := by
    simp
  have hpe := roundTripE es hwf ((encEntries true es).length + 5 + rest.length)
    rest (by omega)
  rw [deserializeF, hlen, hsplit, readLE32_le32]
  simp [hpe]

mutual
/-- The class invariants the size calculator relies on: every ObjectId
payload (plain or inside a DBPointer) holds exactly 12 bytes, as
enforced by the ObjectId constructor (spec section 4.3). -/
def lenV : BVal → Bool
  | .doc es => lenE es
  | .arr vs => lenL vs
  | .codeWithScope _ scope => lenE scope
  | .objectId oid => decide (oid.length = 12)
  | .dbPointer _ oid => decide (oid.length = 12)
  | _ => true

def lenE : DocT → Bool
  | [] => true
  | (_, v) :: rest => lenV v && lenE rest

def lenL : List BVal → Bool
  | [] => true
  | v :: rest => lenV v && lenL rest
end

theorem lenE_arrEntries {i : Nat} {vs : List BVal} (h : lenL vs = true) :
    lenE (arrEntries i vs) = true := by
  induction vs generalizing i with
  | nil => rfl
  | cons v rest ih =>
      simp [lenL, Bool.and_eq_true] at h
      simp [arrEntries, lenE, Bool.and_eq_true]
      exact ⟨h.1, ih h.2⟩

/-- Body length of an encoded entry list equals the calculated entry sizes,
given per-member payload size agreement. -/
theorem encEntries_length_eq (ig : Bool) (es : DocT)
    (ih : ∀ k v, (k, v) ∈ es → lenV v = true →
      (encValue ig v).length = sizeValue ig v)
    (hlen : lenE es = true) :
    (encEntries ig es).length = sizeEntries ig es := by
  induction es with
  | nil => rfl
  | cons e rest ihes =>
      rcases e with ⟨k, v⟩
      simp only [lenE, Bool.and_eq_true] at hlen
      have hv := ih k v (List.mem_cons_self _ _) hlen.1
      have hr := ihes (fun k' v' hm => ih k' v' (List.mem_cons_of_mem _ hm))
        hlen.2
      by_cases hu : (ig && isUndef v) = true
      · simp [encEntries, sizeEntries, hu, hr]
      · simp only [Bool.not_eq_true] at hu
        simp [encEntries, sizeEntries, hu, hr, hv]
        omega

/-- Encoded payload length equals the SizeCalculator result for every value
whose ObjectId payloads have the invariant 12-byte length. -/
theorem sizeValueEq : ∀ n v, bsizeV v ≤ n → lenV v = true →
    ∀ ig, (encValue ig v).length = sizeValue ig v := by
  intro n
  induction n using Nat.strong_induction_on with
  | _ n ihn =>
    intro v hb hlen ig
    cases v with
    | double bits => rfl
    | str s => simp [encValue, sizeValue]; omega
    | doc es =>
        simp only [lenV] at hlen
        have hb' : bsizeE es < n := by
          have : bsizeV (.doc es) = 1 + bsizeE es := rfl
          omega
        have he := encEntries_length_eq ig es
          (fun k v hm hv => ihn _ hb' v (bsizeV_le_of_mem_E hm) hv ig) hlen
        simp [encValue, sizeValue, he]
        omega
    | arr vs =>
        simp only [lenV] at hlen
        have hb' : bsizeE (arrEntries 0 vs) < n := by
          have h1 : bsizeV (.arr vs) = 1 + bsizeL vs := rfl
          have h2 := bsizeE_arrEntries 0 vs
          omega
        have he := encEntries_length_eq ig (arrEntries 0 vs)
          (fun k v hm hv => ihn _ hb' v (bsizeV_le_of_mem_E hm) hv ig)
          (lenE_arrEntries hlen)
        simp [encValue, sizeValue, encArr_eq_encEntries, sizeArr_eq_sizeEntries,
          he]
        omega
    | binData st data => simp [encValue, sizeValue]; omega
    | undef => rfl
    | objectId oid =>
        simp only [lenV, decide_eq_true_eq] at hlen
        simp [encValue, sizeValue, hlen]
    | boolean b => rfl
    | datetime millis => rfl
    | nullV => rfl
    | regex p fl => simp [encValue, sizeValue, sortFlags_length]; omega
    | dbPointer ns oid =>
        simp only [lenV, decide_eq_true_eq] at hlen
        simp [encValue, sizeValue, hlen]
        omega
    | code s => simp [encValue, sizeValue]; omega
    | symbol s => simp [encValue, sizeValue]; omega
    | codeWithScope s scope =>
        simp only [lenV] at hlen
        have hb' : bsizeE scope < n := by
          have : bsizeV (.codeWithScope s scope) = 1 + bsizeE scope := rfl
          omega
        have he := encEntries_length_eq ig scope
          (fun k v hm hv => ihn _ hb' v (bsizeV_le_of_mem_E hm) hv ig) hlen
        simp [encValue, sizeValue, he]
        omega
    | int32 v => rfl
    | timestamp v => rfl
    | long v => rfl
    | decimal128 lo hi => rfl
    | minKey => rfl
    | maxKey => rfl

/-- Framed document length equals the full calculated object size. -/
theorem encDocB_length_eq_sizeDocB (ig : Bool) (es : DocT)
    (hlen : lenE es = true) :
    (encDocB ig es).length = sizeDocB ig es := by
  have he := encEntries_length_eq ig es
    (fun _ v _ hv => sizeValueEq (bsizeV v) v le_rfl hv ig) hlen
  simp [encDocB, sizeDocB, he]
  omega

/-- Errors of the serialization pass (spec section 7 taxonomy, restricted
to the kinds the modelled passes can raise). -/
inductive SerErr where
  | invalidKey
  | cyclicStructure
  | badRef
  | outOfFuel
deriving DecidableEq

/-- SerializationOptions of src/bson.ts: absent fields are `none`; the
facades unpack them with the defaults visible in the source
(checkKeys false, serializeFunctions false, ignoreUndefined true). -/
structure SerializationOptionsM where
  checkKeys : Option Bool := none
  serializeFunctions : Option Bool := none
  ignoreUndefined : Option Bool := none
  minInternalBufferSize : Option Nat := none
  index : Option Nat := none

/-- A forbidden key under checkKeys: leading dollar byte (36) or an
embedded dot byte (46). -/
def badKey (k : Bytes) : Bool := (k.headD 0 == 36) || k.contains 46

mutual
/-- Whether a value contains a forbidden key in a nested document. -/
def hasBadKeyV : BVal → Bool
  | .doc es => hasBadKeyE es
  | .arr vs => hasBadKeyL vs
  | .codeWithScope _ scope => hasBadKeyE scope
  | _ => false

/-- Whether an entry list contains a forbidden key, at this level or below. -/
def hasBadKeyE : DocT → Bool
  | [] => false
  | (k, v) :: rest => badKey k || hasBadKeyV v || hasBadKeyE rest

/-- Whether any array element contains a forbidden key (the generated
numeric keys themselves are never forbidden). -/
def hasBadKeyL : List BVal → Bool
  | [] => false
  | v :: rest => hasBadKeyV v || hasBadKeyL rest
end

/-- Modelled from the spec: the internal serializer pass with the checkKeys
option (spec section 4.5: reject keys with a leading dollar or an embedded
dot, failing with InvalidKey); with checkKeys off it produces the standard
encoding, which embeds every key byte-for-byte. -/
def serializeChecked (ck ig : Bool) (d : DocT) : Except SerErr Bytes :=
  if ck && hasBadKeyE d then .error .invalidKey else .ok (encDocB ig d)

/-- The serialize facade of src/bson.ts lines 121-156: unpacks the options
with their defaults and runs the serializer pass from offset 0; the
returned buffer holds exactly the bytes written by the pass. -/
def serializeF (d : DocT) (opts : SerializationOptionsM) : Except SerErr Bytes :=
  serializeChecked (opts.checkKeys.getD false) (opts.ignoreUndefined.getD true) d

/-- The calculateObjectSize facade of src/bson.ts lines 217-229: unpacks
serializeFunctions/ignoreUndefined with the same defaults as serialize and
runs the size pass. -/
def calculateObjectSizeF (d : DocT) (opts : SerializationOptionsM) : Nat :=
  sizeDocB (opts.ignoreUndefined.getD true) d

/-- A depth-parameterised nested document used as a concrete witness:
`deepDoc n` nests documents n+1 levels deep under key "a". -/
def deepDoc : Nat → DocT
  | 0 => [([97], .int32 7)]
  | n + 1 => [([97], .doc (deepDoc n))]

/-- C1 counterexample: the claimed universal round-trip fails at a
concrete document holding a RegExp with unsorted flag bytes "mi"
(109, 105): the serializer writes the flags sorted per the BSON
i,l,m,s,u,x convention, so deserializing the serialized bytes yields the
flag-sorted document "im" (105, 109), which is not structurally equal to
the input. -/
theorem roundtrip_fails_on_unsorted_regex_flags :
    serializeF [([114], .regex [120] [109, 105])] {} =
      Except.ok (encDocB true [([114], .regex [120] [109, 105])]) ∧
      deserializeF (encDocB true [([114], .regex [120] [109, 105])]) =
        some [([114], .regex [120] [105, 109])] ∧
      ¬ deserializeF (encDocB true [([114], .regex [120] [109, 105])]) =
        some [([114], .regex [120] [109, 105])] := by
  refine ⟨rfl, rfl, ?_⟩
  have hEval : deserializeF (encDocB true [([114], .regex [120] [109, 105])]) =
      some [([114], .regex [120] [105, 109])] := rfl
  rw [hEval]
  simp

/-- C1 (amended).  Round-trip: for every well-formed document (composed
only of Value-Model kinds supported in both directions, at any
Document/Array nesting depth, 50 levels included, with any RegExp flag
bytes already in the sorted BSON order the serializer writes),
serializing with default options and deserializing the produced bytes
returns a structurally equal document. -/
theorem serialize_deserialize_roundtrip (d : DocT) (h : wfE d = true) :
    serializeF d {} = Except.ok (encDocB true d) ∧
      deserializeF (encDocB true d) = some d := by
  constructor
  · rfl
  · have := deserializeF_append h []
    simpa using this

/-- C1 witness: a 51-level-deep nested document round-trips. -/
theorem serialize_deserialize_roundtrip_witness :
    wfE (deepDoc 50) = true ∧
      serializeF (deepDoc 50) {} = Except.ok (encDocB true (deepDoc 50)) ∧
      deserializeF (encDocB true (deepDoc 50)) = some (deepDoc 50) :=
  ⟨by decide, (serialize_deserialize_roundtrip (deepDoc 50) (by decide)).1,
    (serialize_deserialize_roundtrip (deepDoc 50) (by decide)).2⟩

/-- C2.  Size correctness: for every document satisfying the ObjectId
12-byte class invariant and every choice of the serializeFunctions /
ignoreUndefined options applied identically to both calls (checkKeys at
its default), serialize succeeds and the length of the returned byte
buffer equals calculateObjectSize of the same document. -/
theorem serialize_length_eq_calculateObjectSize (d : DocT)
    (opts : SerializationOptionsM) (hck : opts.checkKeys.getD false = false)
    (hlen : lenE d = true) :
    ∃ bs, serializeF d opts = Except.ok bs ∧
      bs.length = calculateObjectSizeF d opts := by
  refine ⟨encDocB (opts.ignoreUndefined.getD true) d, ?_, ?_⟩
  · simp [serializeF, serializeChecked, hck]
  · exact encDocB_length_eq_sizeDocB _ d hlen

/-- C2 witness: a document holding an ObjectId, a string and a nested
array, with ignoreUndefined explicitly false. -/
theorem serialize_length_eq_calculateObjectSize_witness :
    (SerializationOptionsM.mk none none (some false) none none).checkKeys.getD
        false = false ∧
      lenE [([107], .objectId [1, 2, 3, 4, 5, 6, 7, 8, 9, 10, 11, 12]),
        ([115], .str [104, 105]), ([97], .arr [.int32 3, .undef])] = true ∧
      ∃ bs,
        serializeF [([107], .objectId [1, 2, 3, 4, 5, 6, 7, 8, 9, 10, 11, 12]),
            ([115], .str [104, 105]), ([97], .arr [.int32 3, .undef])]
            (SerializationOptionsM.mk none none (some false) none none) =
          Except.ok bs ∧
        bs.length = calculateObjectSizeF
          [([107], .objectId [1, 2, 3, 4, 5, 6, 7, 8, 9, 10, 11, 12]),
            ([115], .str [104, 105]), ([97], .arr [.int32 3, .undef])]
          (SerializationOptionsM.mk none none (some false) none none) :=
  ⟨rfl, by decide,
    serialize_length_eq_calculateObjectSize _ _ rfl (by decide)⟩

/-- C6.  checkKeys: serializing any document containing a key with a
leading dollar or an embedded dot fails with InvalidKey when checkKeys is
true; with checkKeys false (the default) serialization succeeds with the
standard encoding, and any entry key appears verbatim in the output. -/
theorem checkKeys_rejects_bad_keys (d : DocT) (ig : Bool) :
    (hasBadKeyE d = true →
      serializeChecked true ig d = Except.error SerErr.invalidKey) ∧
      serializeChecked false ig d = Except.ok (encDocB ig d) ∧
      ∀ (k : Bytes) (v : BVal) (tl : DocT), (ig && isUndef v) = false →
        encDocB ig ((k, v) :: tl) =
          (le32 ((encEntries ig ((k, v) :: tl)).length + 5) ++ [tagOf v]) ++
            k ++ (0 :: (encValue ig v ++ encEntries ig tl ++ [0])) := by
  refine ⟨fun h => by simp [serializeChecked, h], rfl, ?_⟩
  intro k v tl hu
  simp [encDocB, encEntries, hu]

/-- C6 witness: the single-entry documents with keys "$bad" and "a.b" are
rejected under checkKeys and accepted (keys verbatim) without it. -/
theorem checkKeys_rejects_bad_keys_witness :
    (hasBadKeyE [([36, 98, 97, 100], .nullV)] = true ∧
      serializeChecked true true [([36, 98, 97, 100], .nullV)] =
        Except.error SerErr.invalidKey) ∧
      (hasBadKeyE [([97, 46, 98], .nullV)] = true ∧
        serializeChecked true true [([97, 46, 98], .nullV)] =
          Except.error SerErr.invalidKey) ∧
      serializeChecked false true [([36, 98, 97, 100], .nullV)] =
        Except.ok (encDocB true [([36, 98, 97, 100], .nullV)]) ∧
      encDocB true [([36, 98, 97, 100], .nullV)] =
        (le32 ((encEntries true [([36, 98, 97, 100], .nullV)]).length + 5) ++
            [tagOf BVal.nullV]) ++ [36, 98, 97, 100] ++
          (0 :: (encValue true BVal.nullV ++ encEntries true [] ++ [0])) :=
  ⟨⟨by decide, (checkKeys_rejects_bad_keys [([36, 98, 97, 100], .nullV)]
      true).1 (by decide)⟩,
    ⟨by decide, (checkKeys_rejects_bad_keys [([97, 46, 98], .nullV)]
      true).1 (by decide)⟩,
    (checkKeys_rejects_bad_keys [([36, 98, 97, 100], .nullV)] true).2.1,
    (checkKeys_rejects_bad_keys [([36, 98, 97, 100], .nullV)] true).2.2
      [36, 98, 97, 100] .nullV [] (by decide)⟩

/-- The size read of src/bson.ts lines 260-261: the four bytes at the
current index combined little-endian with `|` and `<<`, which in
JavaScript yields a signed 32-bit value. -/
def readSizeAt (data : Bytes) (i : Int) : Int :=
  let b := fun k => data.getD (i.toNat + k) 0
  let n := b 0 + b 1 * 256 + b 2 * 65536 + b 3 * 16777216
  if n < 2 ^ 31 then (n : Int) else (n : Int) - 2 ^ 32

/-- The deserializeStream loop of src/bson.ts lines 256-268: per document,
read the size at the current index, parse the document at that index
(internalDeserialize with the index option, i.e. on the buffer suffix,
with allowObjectSmallerThanBufferSize), store it at the next output slot,
and advance the index by the size read. -/
def dsLoop (data : Bytes) :
    Nat → Int → (Nat → Option DocT) → Nat → ((Nat → Option DocT) × Int)
  | 0, index, docs, _ => (docs, index)
  | n + 1, index, docs, di =>
      dsLoop data n (index + readSizeAt data index)
        (fun j => if j = di then deserializeF (data.drop index.toNat) else docs j)
        (di + 1)

/-- The deserializeStream facade of src/bson.ts lines 242-272. -/
def deserializeStreamF (data : Bytes) (startIndex numberOfDocuments : Nat)
    (documents : Nat → Option DocT) (docStartIndex : Nat) :
    (Nat → Option DocT) × Int :=
  dsLoop data numberOfDocuments (startIndex : Int) documents docStartIndex

theorem readSizeAt_frame (pre rest : Bytes) (es : DocT)
    (h : (encDocB true es).length < 2 ^ 31) :
    readSizeAt (pre ++ (encDocB true es ++ rest)) (pre.length : Int) =
      ((encDocB true es).length : Int) := by
  have hb : ∀ k, k < 4 →
      (pre ++ (encDocB true es ++ rest)).getD (pre.length + k) 0 =
        (le32 ((encEntries true es).length + 5)).getD k 0 := by
    intro k hk
    rw [List.getD_append_right _ _ _ _ (by omega)]
    have h2 : pre.length + k - pre.length = k := by omega
    rw [h2, encDocB]
    rw [List.getD_append _ _ _ _ (by simp; omega)]
    rw [List.getD_append _ _ _ _ (by simp; omega)]
    rw [List.getD_append _ _ _ _ (by simp; omega)]
  have hb0 := hb 0 (by omega)
  rw [Nat.add_zero] at hb0
  have hb1 := hb 1 (by omega)
  have hb2 := hb 2 (by omega)
  have hb3 := hb 3 (by omega)
  have g0 : (le32 ((encEntries true es).length + 5)).getD 0 0 =
      ((encEntries true es).length + 5) % 256 := rfl
  have g1 : (le32 ((encEntries true es).length + 5)).getD 1 0 =
      ((encEntries true es).length + 5) / 256 % 256 := rfl
  have g2 : (le32 ((encEntries true es).length + 5)).getD 2 0 =
      ((encEntries true es).length + 5) / 65536 % 256 := rfl
  have g3 : (le32 ((encEntries true es).length + 5)).getD 3 0 =
      ((encEntries true es).length + 5) / 16777216 % 256 := rfl
  have hL : (encDocB true es).length = (encEntries true es).length + 5 := by
    simp
  simp only [readSizeAt, Int.toNat_natCast, Nat.add_zero, hb0, hb1, hb2, hb3,
    g0, g1, g2, g3]
  rw [hL] at h ⊢
  have heq : ((encEntries true es).length + 5) % 256 +
      ((encEntries true es).length + 5) / 256 % 256 * 256 +
      ((encEntries true es).length + 5) / 65536 % 256 * 65536 +
      ((encEntries true es).length + 5) / 16777216 % 256 * 16777216 =
      (encEntries true es).length + 5 := by omega
  rw [heq, if_pos h]

/-- Behaviour of the stream loop on back-to-back well-formed framed
documents: every document lands in its slot, earlier slots are untouched,
and the final index advances by the total encoded length. -/
theorem dsLoop_spec : ∀ (ds : List DocT) (pre post : Bytes)
    (docs : Nat → Option DocT) (di : Nat),
    (∀ d ∈ ds, wfE d = true ∧ (encDocB true d).length < 2 ^ 31) →
    (dsLoop (pre ++ (ds.map (encDocB true)).flatten ++ post) ds.length
          (pre.length : Int) docs di).2 =
        (pre.length : Int) +
          (((ds.map (fun d => (encDocB true d).length)).sum : Nat) : Int) ∧
      (∀ j, j < di →
        (dsLoop (pre ++ (ds.map (encDocB true)).flatten ++ post) ds.length
          (pre.length : Int) docs di).1 j = docs j) ∧
      ∀ i (hi : i < ds.length),
        (dsLoop (pre ++ (ds.map (encDocB true)).flatten ++ post) ds.length
          (pre.length : Int) docs di).1 (di + i) = some (ds.get ⟨i, hi⟩) := by
  intro ds
  induction ds with
  | nil =>
      intro pre post docs di _
      refine ⟨by simp [dsLoop], fun j _ => rfl, fun i hi => absurd hi (by simp)⟩
  | cons d ds ih =>
      intro pre post docs di h
      have hd := h d (List.mem_cons_self _ _)
      have hdata : pre ++ ((d :: ds).map (encDocB true)).flatten ++ post =
          (pre ++ encDocB true d) ++ (ds.map (encDocB true)).flatten ++ post := by
        simp [List.flatten]
      have hdata' : pre ++ ((d :: ds).map (encDocB true)).flatten ++ post =
          pre ++ (encDocB true d ++ ((ds.map (encDocB true)).flatten ++ post)) := by
        simp [List.flatten]
      have hsize : readSizeAt
          (pre ++ ((d :: ds).map (encDocB true)).flatten ++ post)
          (pre.length : Int) = ((encDocB true d).length : Int) := by
        rw [hdata']
        exact readSizeAt_frame _ _ _ hd.2
      have hparse : deserializeF
          ((pre ++ ((d :: ds).map (encDocB true)).flatten ++ post).drop
            ((pre.length : Int)).toNat) = some d := by
        rw [hdata', Int.toNat_natCast, List.drop_left]
        exact deserializeF_append hd.1 _
      have hidx : (pre.length : Int) + ((encDocB true d).length : Int) =
          (((pre ++ encDocB true d).length : Nat) : Int) := by
        simp
      have hstep : dsLoop (pre ++ ((d :: ds).map (encDocB true)).flatten ++ post)
          (d :: ds).length (pre.length : Int) docs di =
          dsLoop ((pre ++ encDocB true d) ++ (ds.map (encDocB true)).flatten ++ post)
            ds.length (((pre ++ encDocB true d).length : Nat) : Int)
            (fun j => if j = di then some d else docs j) (di + 1) := by
        rw [List.length_cons, dsLoop, hsize]
        simp only [hparse]
        rw [hidx, hdata]
      obtain ⟨ihA, ihB, ihC⟩ := ih (pre ++ encDocB true d) post
        (fun j => if j = di then some d else docs j) (di + 1)
        (fun d' hm => h d' (List.mem_cons_of_mem _ hm))
      refine ⟨?_, ?_, ?_⟩
      · rw [hstep, ihA]
        simp only [List.length_append, List.map_cons, List.sum_cons]
        push_cast
        ring
      · intro j hj
        rw [hstep, ihB j (by omega)]
        simp [Nat.ne_of_lt hj]
      · intro i hi
        cases i with
        | zero =>
            rw [Nat.add_zero, hstep, ihB di (by omega)]
            simp
        | succ i =>
            rw [show di + (i + 1) = (di + 1) + i by omega, hstep,
              ihC i (by simpa using hi)]
            simp

/-- C4.  deserializeStream on a buffer holding back-to-back well-formed
framed documents starting at startIndex: the i-th parsed document is
stored at documents[docStartIndex + i], the returned index is startIndex
plus the sum of the encoded lengths of the documents, and each encoded length
equals the little-endian 4-byte length prefix of that document. -/
theorem deserializeStream_spec (ds : List DocT) (pre post : Bytes)
    (documents : Nat → Option DocT) (docStartIndex : Nat)
    (h : ∀ d ∈ ds, wfE d = true ∧ (encDocB true d).length < 2 ^ 31) :
    (deserializeStreamF (pre ++ (ds.map (encDocB true)).flatten ++ post)
          pre.length ds.length documents docStartIndex).2 =
        (pre.length : Int) +
          (((ds.map (fun d => (encDocB true d).length)).sum : Nat) : Int) ∧
      (∀ i (hi : i < ds.length),
        (deserializeStreamF (pre ++ (ds.map (encDocB true)).flatten ++ post)
          pre.length ds.length documents docStartIndex).1 (docStartIndex + i) =
          some (ds.get ⟨i, hi⟩)) ∧
      ∀ d ∈ ds, (readLE32 (encDocB true d)).map Prod.fst =
        some ((encDocB true d).length) := by
  obtain ⟨hA, _, hC⟩ := dsLoop_spec ds pre post documents docStartIndex h
  refine ⟨hA, hC, ?_⟩
  intro d hm
  have hlt := (h d hm).2
  have : encDocB true d = le32 ((encEntries true d).length + 5) ++
      (encEntries true d ++ [0]) := by
    simp [encDocB]
  rw [this, readLE32_le32]
  have hLen : (le32 ((encEntries true d).length + 5) ++
      (encEntries true d ++ [0])).length = (encEntries true d).length + 5 := by
    simp
    omega
  rw [hLen]
  rw [this, hLen] at hlt
  have hmod : ((encEntries true d).length + 5) % 2 ^ 32 =
      (encEntries true d).length + 5 := Nat.mod_eq_of_lt (by omega)
  simp [hmod]
  omega

/-- C4 witness: a buffer holding one empty framed document. -/
theorem deserializeStream_spec_witness :
    (deserializeStreamF [5, 0, 0, 0, 0] 0 1 (fun _ => none) 0).2 = 5 ∧
      (deserializeStreamF [5, 0, 0, 0, 0] 0 1 (fun _ => none) 0).1 0 =
        some [] := by
  have h := deserializeStream_spec [[]] [] [] (fun _ => none) 0
    (by intro d hm; simp at hm; subst hm; exact ⟨rfl, by decide⟩)
  constructor
  · have := h.1
    simpa using this
  · have := h.2.1 0 (by decide)
    simpa using this

/-- Buffer.copy semantics: copy `src` into `target` starting at `tStart`,
never past the end of the target; the target keeps its length. -/
def bufCopy (src target : Bytes) (tStart : Nat) : Bytes :=
  target.take tStart ++ src.take (target.length - tStart) ++
    target.drop (tStart + (src.take (target.length - tStart)).length)

theorem bufCopy_zero_of_le {src target : Bytes}
    (h : src.length ≤ target.length) :
    bufCopy src target 0 = src ++ target.drop src.length := by
  have ht : src.take (target.length - 0) = src :=
    List.take_of_length_le (by omega)
  rw [bufCopy, ht]
  simp

/-- The module state of src/bson.ts: the process-wide shared internal
serialization buffer declared at line 101. -/
structure BsonState where
  internalBuffer : Bytes
deriving DecidableEq

/-- Modelled from the spec: the end offset returned by the internal
serializeInto pass when writing a document at a start offset. -/
def serializeIntoEnd (ig : Bool) (d : DocT) (startOffset : Nat) : Nat :=
  startOffset + (encDocB ig d).length

/-- serializeWithBufferAndIndex of src/bson.ts lines 166-193, with its
state effect made explicit: the internal serializer pass writes the
encoded document into the process-wide shared internal buffer from offset
0 (line 181 passes the shared `buffer`), buffer.copy then transfers the
written byte range into the caller's target buffer at options.index
(default 0), and the call returns startIndex + serializationIndex - 1.
Returns the new module state, the new target buffer and the index. -/
def serializeWithBufferAndIndexF (st : BsonState) (d : DocT)
    (finalBuffer : Bytes) (opts : SerializationOptionsM) :
    Except SerErr (BsonState × Bytes × Nat) :=
  if (opts.checkKeys.getD false) && hasBadKeyE d then .error .invalidKey
  else
    let ig := opts.ignoreUndefined.getD true
    let startIndex := opts.index.getD 0
    let written := encDocB ig d
    let newInternal := bufCopy written st.internalBuffer 0
    let newFinal :=
      bufCopy (newInternal.take written.length) finalBuffer startIndex
    .ok (⟨newInternal⟩, newFinal, startIndex + written.length - 1)

/-- C5.  serializeWithBufferAndIndex returns the index of the last written
byte: options.index (default 0) plus the end offset of the serializeInto
pass started at offset 0, minus one. -/
theorem serializeWithBufferAndIndex_returns_last_index (st : BsonState)
    (d : DocT) (finalBuffer : Bytes) (opts : SerializationOptionsM)
    (hck : opts.checkKeys.getD false = false) :
    ∃ r, serializeWithBufferAndIndexF st d finalBuffer opts = Except.ok r ∧
      r.2.2 = opts.index.getD 0 +
        serializeIntoEnd (opts.ignoreUndefined.getD true) d 0 - 1 := by
  refine ⟨(⟨bufCopy (encDocB (opts.ignoreUndefined.getD true) d)
      st.internalBuffer 0⟩,
    bufCopy ((bufCopy (encDocB (opts.ignoreUndefined.getD true) d)
        st.internalBuffer 0).take
        (encDocB (opts.ignoreUndefined.getD true) d).length)
      finalBuffer (opts.index.getD 0),
    opts.index.getD 0 +
      (encDocB (opts.ignoreUndefined.getD true) d).length - 1), ?_, ?_⟩
  · simp [serializeWithBufferAndIndexF, hck]
  · simp [serializeIntoEnd]

/-- C5 witness: a one-entry document written at index 3 of a target buffer. -/
theorem serializeWithBufferAndIndex_returns_last_index_witness :
    (SerializationOptionsM.mk none none none none
        (some 3)).checkKeys.getD false = false ∧
      ∃ r, serializeWithBufferAndIndexF ⟨List.replicate 32 0⟩
          [([97], .boolean true)] (List.replicate 32 0)
          (SerializationOptionsM.mk none none none none (some 3)) =
          Except.ok r ∧
        r.2.2 = (SerializationOptionsM.mk none none none none
            (some 3)).index.getD 0 +
          serializeIntoEnd true [([97], .boolean true)] 0 - 1 :=
  ⟨rfl, serializeWithBufferAndIndex_returns_last_index _ _ _ _ rfl⟩

/-- C3 counterexample: with an all-sevens shared internal buffer, calling
serializeWithBufferAndIndex on the empty document overwrites the first
five shared-buffer bytes with the encoded document: the shared buffer is
modified, refuting the claim that the call never touches shared state. -/
theorem serializeWithBufferAndIndex_modifies_shared_buffer :
    serializeWithBufferAndIndexF ⟨List.replicate 8 7⟩ []
        (List.replicate 5 0) {} =
      Except.ok (⟨[5, 0, 0, 0, 0, 7, 7, 7]⟩, [5, 0, 0, 0, 0], 4) ∧
      ([5, 0, 0, 0, 0, 7, 7, 7] : Bytes) ≠ List.replicate 8 7 :=
  ⟨rfl, by decide⟩

/-- C3 amended: serializeWithBufferAndIndex does touch shared state: it
first serializes into the process-wide shared internal buffer (overwriting
its first encodedLength bytes, the rest unchanged) and only then copies
those bytes into the caller's target buffer at options.index. -/
theorem serializeWithBufferAndIndex_state_effect (st : BsonState) (d : DocT)
    (finalBuffer : Bytes) (opts : SerializationOptionsM)
    (hck : opts.checkKeys.getD false = false)
    (hcap : (encDocB (opts.ignoreUndefined.getD true) d).length ≤
      st.internalBuffer.length) :
    ∃ r, serializeWithBufferAndIndexF st d finalBuffer opts = Except.ok r ∧
      r.1.internalBuffer =
        encDocB (opts.ignoreUndefined.getD true) d ++
          st.internalBuffer.drop
            (encDocB (opts.ignoreUndefined.getD true) d).length ∧
      r.2.1 = bufCopy (encDocB (opts.ignoreUndefined.getD true) d)
        finalBuffer (opts.index.getD 0) := by
  refine ⟨(⟨bufCopy (encDocB (opts.ignoreUndefined.getD true) d)
      st.internalBuffer 0⟩,
    bufCopy ((bufCopy (encDocB (opts.ignoreUndefined.getD true) d)
        st.internalBuffer 0).take
        (encDocB (opts.ignoreUndefined.getD true) d).length)
      finalBuffer (opts.index.getD 0),
    opts.index.getD 0 +
      (encDocB (opts.ignoreUndefined.getD true) d).length - 1), ?_, ?_, ?_⟩
  · simp [serializeWithBufferAndIndexF, hck]
  · exact bufCopy_zero_of_le hcap
  · rw [bufCopy_zero_of_le hcap, List.take_left]

/-- C3 amended witness: the counterexample state, via the general state
effect theorem. -/
theorem serializeWithBufferAndIndex_state_effect_witness :
    (SerializationOptionsM.mk none none none none none).checkKeys.getD false =
        false ∧
      (encDocB true ([] : DocT)).length ≤ (List.replicate 8 7 : Bytes).length ∧
      ∃ r, serializeWithBufferAndIndexF ⟨List.replicate 8 7⟩ []
            (List.replicate 5 0)
            (SerializationOptionsM.mk none none none none none) =
          Except.ok r ∧
        r.1.internalBuffer = encDocB true [] ++
          (List.replicate 8 7 : Bytes).drop (encDocB true ([] : DocT)).length ∧
        r.2.1 = bufCopy (encDocB true []) (List.replicate 5 0) 0 :=
  ⟨rfl, by decide,
    serializeWithBufferAndIndex_state_effect ⟨List.replicate 8 7⟩ []
      (List.replicate 5 0) _ rfl (by decide)⟩

/-- The default internal buffer capacity MAXSIZE of src/bson.ts line 98. -/
def MAXSIZE : Nat := 1024 * 1024 * 17

/-- setInternalBufferSize of src/bson.ts lines 108-113: replace the shared
buffer by a fresh zeroed one only when the requested size exceeds the
current length, otherwise leave it untouched. -/
def setInternalBufferSizeF (buffer : Bytes) (size : Nat) : Bytes :=
  if buffer.length < size then List.replicate size 0 else buffer

/-- The buffer-growth step at the top of serialize, src/bson.ts lines
128-134: grow the shared buffer when minInternalBufferSize (default
MAXSIZE) exceeds the current length. -/
def serializeGrowBuffer (buffer : Bytes) (opts : SerializationOptionsM) :
    Bytes :=
  if buffer.length < opts.minInternalBufferSize.getD MAXSIZE then
    List.replicate (opts.minInternalBufferSize.getD MAXSIZE) 0
  else buffer

/-- C10.  The shared internal buffer length is monotonically non-decreasing:
setInternalBufferSize grows the buffer exactly when the requested size
exceeds the current length and is a no-op otherwise, and the serialize
facade grows it exactly when minInternalBufferSize exceeds the current
length. -/
theorem internalBuffer_length_monotone (buffer : Bytes) (size : Nat)
    (opts : SerializationOptionsM) :
    buffer.length ≤ (setInternalBufferSizeF buffer size).length ∧
      (size ≤ buffer.length → setInternalBufferSizeF buffer size = buffer) ∧
      (buffer.length < size →
        (setInternalBufferSizeF buffer size).length = size) ∧
      buffer.length ≤ (serializeGrowBuffer buffer opts).length ∧
      (opts.minInternalBufferSize.getD MAXSIZE ≤ buffer.length →
        serializeGrowBuffer buffer opts = buffer) := by
  refine ⟨?_, ?_, ?_, ?_, ?_⟩
  · by_cases h : buffer.length < size <;> simp [setInternalBufferSizeF, h]
    omega
  · intro h
    simp [setInternalBufferSizeF, Nat.not_lt.mpr h]
  · intro h
    simp [setInternalBufferSizeF, h]
  · by_cases h : buffer.length < opts.minInternalBufferSize.getD MAXSIZE <;>
      simp [serializeGrowBuffer, h]
    omega
  · intro h
    simp [serializeGrowBuffer, Nat.not_lt.mpr h]

/-- C10 witness: a 3-byte buffer: size 2 is a no-op, size 5 grows to 5,
and an explicit minInternalBufferSize of 2 leaves it untouched. -/
theorem internalBuffer_length_monotone_witness :
    (2 ≤ (List.replicate 3 0 : Bytes).length →
        setInternalBufferSizeF (List.replicate 3 0) 2 = List.replicate 3 0) ∧
      ((List.replicate 3 0 : Bytes).length < 5 →
        (setInternalBufferSizeF (List.replicate 3 0) 5).length = 5) ∧
      ((SerializationOptionsM.mk none none none (some 2)
          none).minInternalBufferSize.getD MAXSIZE ≤
          (List.replicate 3 0 : Bytes).length →
        serializeGrowBuffer (List.replicate 3 0)
          (SerializationOptionsM.mk none none none (some 2) none) =
          List.replicate 3 0) ∧
      2 ≤ (List.replicate 3 0 : Bytes).length ∧
      (List.replicate 3 0 : Bytes).length < 5 :=
  ⟨(internalBuffer_length_monotone (List.replicate 3 0) 2
      (SerializationOptionsM.mk none none none (some 2) none)).2.1,
    (internalBuffer_length_monotone (List.replicate 3 0) 5
      (SerializationOptionsM.mk none none none (some 2) none)).2.2.1,
    (internalBuffer_length_monotone (List.replicate 3 0) 2
      (SerializationOptionsM.mk none none none (some 2) none)).2.2.2.2,
    by decide, by decide⟩

/-- Modelled from the spec: JavaScript ToUint32: reinterpret an integer
via twos-complement wraparound into the range 0..2^32-1. -/
def toUint32 (x : Int) : Nat := (x % (2 ^ 32 : Int)).toNat

/-- Modelled from the spec: the WideInt64 (Long) representation of spec
section 4.1: two 32-bit halves plus an unsigned flag (the flag governs
display and comparison, not the stored bits). -/
structure LongM where
  low : Nat
  high : Nat
  unsigned : Bool
deriving DecidableEq

/-- Modelled from the spec: Long construction from two 32-bit halves given
as JavaScript numbers, each coerced through ToUint32 wraparound. -/
def longFromBits (low high : Int) (uns : Bool) : LongM :=
  ⟨toUint32 low, toUint32 high, uns⟩

/-- Modelled from the spec: Long.MAX_UNSIGNED_VALUE, all 64 bits set. -/
def longMaxUnsignedValue : LongM := ⟨2 ^ 32 - 1, 2 ^ 32 - 1, true⟩

/-- The unsigned 64-bit value held by a Long. -/
def longToUnsignedNat (l : LongM) : Nat := l.low + 2 ^ 32 * l.high

/-- Modelled from the spec: the Timestamp constructor paths exercised by
the test-suite in the sources (src/unnamed/part_000): no arguments, a
seconds/ordinal pair (low = i, high = t, both wrapped unsigned), another
Timestamp, or a signed or unsigned 64-bit Long — every path forces the
unsigned flag to true. -/
def timestampNone : LongM := ⟨0, 0, true⟩

def timestampFromTI (t i : Int) : LongM := ⟨toUint32 i, toUint32 t, true⟩

def timestampFromTimestamp (ts : LongM) : LongM := ⟨ts.low, ts.high, true⟩

def timestampFromLong (l : LongM) : LongM := ⟨l.low, l.high, true⟩

/-- Modelled from the spec: Timestamp.MAX_VALUE is Long.MAX_UNSIGNED_VALUE. -/
def timestampMaxValue : LongM := longMaxUnsignedValue

/-- Modelled from the spec: Timestamp.toString renders the unsigned 64-bit
value as a decimal string (exact, no floating-point detour). -/
def timestampToString (ts : LongM) : String := Nat.repr (longToUnsignedNat ts)

/-- Modelled from the spec: Timestamp.toJSON yields a single-entry object
keyed by the dollar-timestamp tag with the decimal string. -/
def timestampToJSON (ts : LongM) : String × String :=
  ("$timestamp", timestampToString ts)

/-- C7.  Timestamp is always unsigned, whatever the construction path;
negative and overflowed inputs wrap around twos-complement; the maximal
pair prints and JSON-serializes as 18446744073709551615; and
Timestamp.MAX_VALUE is the all-bits-set unsigned 64-bit value 2^64-1. -/
theorem timestamp_always_unsigned :
    timestampNone.unsigned = true ∧
      (∀ t i : Int, (timestampFromTI t i).unsigned = true) ∧
      (∀ ts : LongM, (timestampFromTimestamp ts).unsigned = true) ∧
      (∀ l : LongM, (timestampFromLong l).unsigned = true) ∧
      timestampFromTI (-1) (-1) = timestampFromTI 4294967295 4294967295 ∧
      timestampToString (timestampFromTI 4294967295 4294967295) =
        "18446744073709551615" ∧
      timestampToJSON (timestampFromTI 4294967295 4294967295) =
        ("$timestamp", "18446744073709551615") ∧
      timestampMaxValue = longMaxUnsignedValue ∧
      longToUnsignedNat timestampMaxValue = 2 ^ 64 - 1 :=
  ⟨rfl, fun _ _ => rfl, fun _ => rfl, fun _ => rfl, by decide, by decide,
    by decide, rfl, by decide⟩

/-- Extended JSON values produced at the boundary, restricted to the
shapes the modelled classes emit. -/
inductive EJVal where
  | num (n : Int)
  | str (s : String)
  | obj (fields : List (String × EJVal))

/-- EJSONOptions: the relaxed flag, possibly absent. -/
structure EJSONOptionsM where
  relaxed : Option Bool := none

/-- The truthiness of the `options?.relaxed` access for a possibly-absent
options object (src/test_deps.ts line 94). -/
def relaxedEff (options : Option EJSONOptionsM) : Bool :=
  (options.bind (fun o => o.relaxed)).getD false

/-- MinKey.toExtendedJSON of src/unnamed/part_001 lines 16-19: the
single-entry object keyed by the dollar-minKey tag with value 1. -/
def minKeyToExtendedJSON : EJVal := .obj [("$minKey", .num 1)]

/-- MaxKey.toExtendedJSON of the MaxKey class in src/test_deps.ts: the
single-entry object keyed by the dollar-maxKey tag with value 1. -/
def maxKeyToExtendedJSON : EJVal := .obj [("$maxKey", .num 1)]

/-- The Int32 class of src/test_deps.ts: the stored value is the
constructor argument after the JavaScript `| 0` coercion. -/
structure Int32M where
  value : Int
deriving DecidableEq

/-- JavaScript `| 0`: twos-complement truncation to signed 32 bits. -/
def toInt32 (x : Int) : Int := (x + 2 ^ 31) % 2 ^ 32 - 2 ^ 31

/-- The Int32 constructor of src/test_deps.ts line 72. -/
def int32OfNumber (x : Int) : Int32M := ⟨toInt32 x⟩

/-- Int32.toExtendedJSON of src/test_deps.ts lines 92-96: the plain native
number when options?.relaxed is truthy, the canonical dollar-numberInt
wrapping of the decimal string otherwise. -/
def int32ToExtendedJSON (i : Int32M) (options : Option EJSONOptionsM) :
    EJVal :=
  if relaxedEff options then .num i.value
  else .obj [("$numberInt", .str (toString i.value))]

/-- C9.  Canonical Extended-JSON mode (relaxed absent or false) wraps each
extended type in a single-entry object keyed by its dollar-type tag:
MinKey and MaxKey to value 1, Int32 to the decimal string of its value;
relaxed mode instead emits the plain native number for Int32. -/
theorem canonical_extended_json_wrapping :
    minKeyToExtendedJSON = EJVal.obj [("$minKey", .num 1)] ∧
      maxKeyToExtendedJSON = EJVal.obj [("$maxKey", .num 1)] ∧
      (∀ (i : Int32M) (options : Option EJSONOptionsM),
        relaxedEff options = false →
          int32ToExtendedJSON i options =
            EJVal.obj [("$numberInt", .str (toString i.value))]) ∧
      ∀ (i : Int32M) (options : Option EJSONOptionsM),
        relaxedEff options = true →
          int32ToExtendedJSON i options = EJVal.num i.value :=
  ⟨rfl, rfl,
    fun i options h => by simp [int32ToExtendedJSON, h],
    fun i options h => by simp [int32ToExtendedJSON, h]⟩

/-- C9 witness: absent options give the canonical wrapping of 5, a present
true relaxed flag gives the plain number. -/
theorem canonical_extended_json_wrapping_witness :
    relaxedEff none = false ∧
      int32ToExtendedJSON (int32OfNumber 5) none =
        EJVal.obj [("$numberInt", .str (toString (int32OfNumber 5).value))] ∧
      relaxedEff (some ⟨some true⟩) = true ∧
      int32ToExtendedJSON (int32OfNumber 5) (some ⟨some true⟩) =
        EJVal.num (int32OfNumber 5).value :=
  ⟨rfl,
    (canonical_extended_json_wrapping).2.2.1 (int32OfNumber 5) none rfl,
    rfl,
    (canonical_extended_json_wrapping).2.2.2 (int32OfNumber 5)
      (some ⟨some true⟩) rfl⟩

/-- Modelled from the spec: the object-graph view of a document used for
cycle detection (spec sections 4.5 and 9): an entry value is either a
primitive or a reference to a heap node; a heap node is the entry list of
a nested document or array object, and distinct nodes model distinct
JavaScript object identities. -/
inductive HVal where
  | prim
  | ref (id : Nat)
deriving DecidableEq

/-- Entry list of one graph node. -/
abbrev HEntries := List (Bytes × HVal)

/-- The heap: one entry list per object, indexed by node id. -/
abbrev HeapT := List HEntries

mutual
/-- Modelled from the spec: the recursive serialization walk over the
object graph with the ancestor-tracking path threaded through the
recursive calls (spec section 4.5; src/bson.ts passes the initial empty
ancestor list to the internal pass at line 145).  Entering a node already
on the ancestor path fails with CyclicStructure; a dangling reference
fails with badRef; `fuel` bounds the recursion depth and the fuel used by
serializeGraph is proven sufficient. -/
def serH (h : HeapT) : Nat → List Nat → Nat → Except SerErr Unit
  | 0, _, _ => .error .outOfFuel
  | fuel + 1, path, id =>
      if id ∈ path then .error .cyclicStructure
      else
        match h.get? id with
        | none => .error .badRef
        | some es => serHEntries h fuel (id :: path) es
termination_by fuel _ _ => (fuel, 0)

/-- Modelled from the spec: the entry loop of the walk: primitives are
written directly, references recurse with the extended ancestor path, and
the first error aborts the document. -/
def serHEntries (h : HeapT) : Nat → List Nat → HEntries → Except SerErr Unit
  | _, _, [] => .ok ()
  | fuel, p, (_, .prim) :: rest => serHEntries h fuel p rest
  | fuel, p, (_, .ref j) :: rest =>
      match serH h fuel p j with
      | .ok _ => serHEntries h fuel p rest
      | .error e => .error e
termination_by fuel _ es => (fuel, es.length + 1)
end

/-- Modelled from the spec: serialize running the recursive pass from the
root with the empty ancestor path; the fuel exceeds every possible
ancestor-path length, and is proven never to run out. -/
def serializeGraph (h : HeapT) (root : Nat) : Except SerErr Unit :=
  serH h (h.length + 1) [] root

/-- serializeWithBufferAndIndex runs the same internal serializer pass
(src/bson.ts line 180), so it has the same cyclic-structure behaviour. -/
def serializeGraphWithBufferAndIndex (h : HeapT) (root : Nat) :
    Except SerErr Unit :=
  serializeGraph h root

/-- One reference step in the object graph. -/
def hasEdge (h : HeapT) (a b : Nat) : Prop :=
  ∃ es k, h.get? a = some es ∧ (k, HVal.ref b) ∈ es

/-- Every reference in the heap points at an existing node (always true of
a JavaScript object graph). -/
def closedHeap (h : HeapT) : Prop := ∀ a b, hasEdge h a b → b < h.length

theorem nodup_bounded_length {path : List Nat} {L : Nat} (hnd : path.Nodup)
    (hb : ∀ x ∈ path, x < L) : path.length ≤ L := by
  have h1 : path.toFinset.card = path.length := List.toFinset_card_of_nodup hnd
  have h2 : path.toFinset ⊆ Finset.range L := by
    intro x hx
    simp only [List.mem_toFinset] at hx
    simpa [Finset.mem_range] using hb x hx
  have h3 := Finset.card_le_card h2
  simp [Finset.card_range] at h3
  omega

/-- On a closed heap, with the fuel dominating the remaining depth, the
walk never reports fuel exhaustion or a dangling reference: it either
succeeds or detects a cycle. -/
theorem serH_ok_or_cyclic (h : HeapT) :
    ∀ fuel path id, closedHeap h → id < h.length → path.Nodup →
      (∀ x ∈ path, x < h.length) → h.length + 1 ≤ fuel + path.length →
      serH h fuel path id = .ok () ∨
        serH h fuel path id = .error .cyclicStructure := by
  intro fuel
  induction fuel using Nat.strong_induction_on with
  | _ fuel ihf =>
    intro path id hc hid hnd hpl hfuel
    match fuel with
    | 0 =>
        exfalso
        have := nodup_bounded_length hnd hpl
        omega
    | fuel + 1 =>
      by_cases hip : id ∈ path
      · right; simp [serH, hip]
      · obtain ⟨es, hes⟩ : ∃ es, h.get? id = some es :=
          ⟨h.get ⟨id, hid⟩, List.get?_eq_get hid⟩
        have hsub : ∀ es', (∀ e ∈ es', e ∈ es) →
            serHEntries h fuel (id :: path) es' = .ok () ∨
              serHEntries h fuel (id :: path) es' =
                .error .cyclicStructure := by
          intro es'
          induction es' with
          | nil => intro _; left; simp [serHEntries]
          | cons e rest ihe =>
              intro hm
              rcases e with ⟨k, v⟩
              cases v with
              | prim =>
                  simpa [serHEntries] using
                    ihe (fun e he => hm e (List.mem_cons_of_mem _ he))
              | ref j =>
                  have hj : j < h.length :=
                    hc id j ⟨es, k, hes, hm (k, .ref j) (List.mem_cons_self _ _)⟩
                  have hrec := ihf fuel (by omega) (id :: path) j hc hj
                    (List.nodup_cons.mpr ⟨hip, hnd⟩)
                    (by
                      intro x hx
                      rcases List.mem_cons.mp hx with rfl | hx'
                      · exact hid
                      · exact hpl x hx')
                    (by simp; omega)
                  rcases hrec with hok | hcyc
                  · rcases ihe (fun e he => hm e (List.mem_cons_of_mem _ he))
                      with hok' | hcyc'
                    · left; simp [serHEntries, hok, hok']
                    · right; simp [serHEntries, hok, hcyc']
                  · right; simp [serHEntries, hcyc]
        have hes' : h[id]? = some es := by
          rw [← List.get?_eq_getElem?]
          exact hes
        have hmain : serH h (fuel + 1) path id =
            serHEntries h fuel (id :: path) es := by
          simp [serH, hip, hes']
        rw [hmain]
        exact hsub es (fun _ he => he)

/-- A successful entry loop means the walk succeeded on every referenced
child. -/
theorem serHEntries_ok_ref {h : HeapT} {fuel : Nat} {p : List Nat}
    {es : HEntries} {k : Bytes} {j : Nat}
    (hok : serHEntries h fuel p es = .ok ())
    (hm : (k, HVal.ref j) ∈ es) : serH h fuel p j = .ok () := by
  induction es with
  | nil => simp at hm
  | cons e rest ih =>
      rcases e with ⟨k', v⟩
      rcases List.mem_cons.mp hm with he | he
      · cases he
        rw [serHEntries] at hok
        cases hs : serH h fuel p j with
        | ok u => cases u; rfl
        | error e => rw [hs] at hok; simp at hok
      · cases v with
        | prim =>
            rw [serHEntries] at hok
            exact ih hok he
        | ref j' =>
            rw [serHEntries] at hok
            cases hs : serH h fuel p j' with
            | ok u => rw [hs] at hok; exact ih hok he
            | error e => rw [hs] at hok; simp at hok

/-- A successful walk certifies that every reference chain out of the
start node is duplicate-free and avoids the ancestor path: the ancestor
set would have caught any repetition. -/
theorem serH_ok_chain {h : HeapT} :
    ∀ (ws : List Nat) (v fuel : Nat) (p : List Nat),
      serH h fuel p v = .ok () → List.Chain (hasEdge h) v ws →
      (v :: ws).Nodup ∧ ∀ x ∈ v :: ws, x ∉ p := by
  intro ws
  induction ws with
  | nil =>
      intro v fuel p hok _
      match fuel with
      | 0 => simp [serH] at hok
      | fuel + 1 =>
        by_cases hv : v ∈ p
        · simp [serH, hv] at hok
        · refine ⟨List.nodup_singleton v, ?_⟩
          intro x hx
          simp at hx
          subst hx
          exact hv
  | cons w ws ih =>
      intro v fuel p hok hch
      obtain ⟨hedge, hch'⟩ := List.chain_cons.mp hch
      match fuel with
      | 0 => simp [serH] at hok
      | fuel + 1 =>
        by_cases hv : v ∈ p
        · simp [serH, hv] at hok
        · obtain ⟨es, k, hes, hm⟩ := hedge
          simp only [serH, if_neg hv, hes] at hok
          have hsub := serHEntries_ok_ref hok hm
          obtain ⟨hnd, hnp⟩ := ih w fuel (v :: p) hsub hch'
          refine ⟨?_, ?_⟩
          · rw [List.nodup_cons]
            exact ⟨fun hmem => (hnp v hmem) (List.mem_cons_self v p), hnd⟩
          · intro x hx
            rcases List.mem_cons.mp hx with rfl | hx'
            · exact hv
            · exact fun hxp => (hnp x hx') (List.mem_cons_of_mem _ hxp)

/-- A reflexive-transitive reachability witness yields a chain ending at
the target. -/
theorem reflTransGen_chain {h : HeapT} {a b : Nat}
    (hr : Relation.ReflTransGen (hasEdge h) a b) :
    a = b ∨ ∃ ws, List.Chain (hasEdge h) a (ws ++ [b]) := by
  induction hr using Relation.ReflTransGen.head_induction_on with
  | refl => exact Or.inl rfl
  | head hedge _ ih =>
      rename_i a' c _
      right
      rcases ih with rfl | ⟨ws, hch⟩
      · exact ⟨[], List.Chain.cons hedge List.Chain.nil⟩
      · exact ⟨c :: ws, List.Chain.cons hedge hch⟩

/-- A strict cycle at `n` yields a nonempty chain from `n` back to `n`. -/
theorem transGen_cycle_chain {h : HeapT} {n : Nat}
    (hn : Relation.TransGen (hasEdge h) n n) :
    ∃ ws, List.Chain (hasEdge h) n (ws ++ [n]) := by
  obtain ⟨c, hnc, hcn⟩ := Relation.TransGen.head'_iff.mp hn
  rcases reflTransGen_chain hcn with rfl | ⟨ws, hch⟩
  · exact ⟨[], List.Chain.cons hnc List.Chain.nil⟩
  · exact ⟨c :: ws, List.Chain.cons hnc hch⟩

/-- C8.  A document whose object graph reaches a cycle fails serialization
with CyclicStructure (rather than recursing forever), through both the
serialize and the serializeWithBufferAndIndex entry points; detection is
by the ancestor path threaded through the recursion. -/
theorem cyclic_document_fails_serialization (h : HeapT) (root : Nat)
    (hc : closedHeap h) (hroot : root < h.length)
    (hcyc : ∃ n, Relation.ReflTransGen (hasEdge h) root n ∧
      Relation.TransGen (hasEdge h) n n) :
    serializeGraph h root = .error .cyclicStructure ∧
      serializeGraphWithBufferAndIndex h root = .error .cyclicStructure := by
  suffices hs : serializeGraph h root = .error .cyclicStructure from ⟨hs, hs⟩
  obtain ⟨n, hrn, hnn⟩ := hcyc
  rcases serH_ok_or_cyclic h (h.length + 1) [] root hc hroot List.nodup_nil
    (by simp) (by simp) with hok | hcy
  · exfalso
    obtain ⟨ws₂, hch₂⟩ := transGen_cycle_chain hnn
    rcases reflTransGen_chain hrn with rfl | ⟨ws₁, hch₁⟩
    · have hnodup := (serH_ok_chain (ws₂ ++ [root]) root (h.length + 1) []
        hok hch₂).1
      rw [List.nodup_cons] at hnodup
      exact hnodup.1 (by simp)
    · have hch : List.Chain (hasEdge h) root (ws₁ ++ n :: (ws₂ ++ [n])) :=
        List.chain_split.mpr ⟨hch₁, hch₂⟩
      have hnodup := (serH_ok_chain (ws₁ ++ n :: (ws₂ ++ [n])) root
        (h.length + 1) [] hok hch).1
      rw [List.nodup_cons] at hnodup
      have := hnodup.2
      have hmid := (List.nodup_append.mp this).2.1
      rw [List.nodup_cons] at hmid
      exact hmid.1 (by simp)
  · exact hcy

/-- C8 witness: the one-node heap whose single document holds itself under
key "a" (a direct self-reference). -/
theorem cyclic_document_fails_serialization_witness :
    closedHeap [[([97], HVal.ref 0)]] ∧ 0 < ([[([97], HVal.ref 0)]] : HeapT).length ∧
      serializeGraph [[([97], HVal.ref 0)]] 0 = .error .cyclicStructure ∧
      serializeGraphWithBufferAndIndex [[([97], HVal.ref 0)]] 0 =
        .error .cyclicStructure :=
  ⟨by
      intro a b hab
      obtain ⟨es, k, hes, hm⟩ := hab
      cases a with
      | zero =>
          simp [List.get?] at hes
          subst hes
          simp at hm
          simp [hm.2]
      | succ a => simp [List.get?] at hes,
    by decide,
    (cyclic_document_fails_serialization [[([97], HVal.ref 0)]] 0
      (by
        intro a b hab
        obtain ⟨es, k, hes, hm⟩ := hab
        cases a with
        | zero =>
            simp [List.get?] at hes
            subst hes
            simp at hm
            simp [hm.2]
        | succ a => simp [List.get?] at hes)
      (by decide)
      ⟨0, Relation.ReflTransGen.refl,
        Relation.TransGen.single ⟨[([97], HVal.ref 0)], [97], rfl, by simp⟩⟩).1,
    (cyclic_document_fails_serialization [[([97], HVal.ref 0)]] 0
      (by
        intro a b hab
        obtain ⟨es, k, hes, hm⟩ := hab
        cases a with
        | zero =>
            simp [List.get?] at hes
            subst hes
            simp at hm
            simp [hm.2]
        | succ a => simp [List.get?] at hes)
      (by decide)
      ⟨0, Relation.ReflTransGen.refl,
        Relation.TransGen.single ⟨[([97], HVal.ref 0)], [97], rfl, by simp⟩⟩).2⟩

end BsonModel
